import Mathlib

/-!
Verification of the airspace vertex-extraction core of the VFR chart project.

The development embeds the geometric pipeline of `airspace_vertex_detector.py`
and the pixel-to-geographic mapping of `chart_preprocessing.py`:

* contours are lists of integer pixel points, as produced by `cv2.findContours`;
* `cv2.contourArea`, `cv2.arcLength`, `cv2.boundingRect` and `cv2.approxPolyDP`
  are modelled by their documented semantics (absolute shoelace area, Euclidean
  polyline length, axis-aligned bounding rectangle, and Ramer-Douglas-Peucker
  curve simplification respectively);
* `extract_polygon_vertices`, `detect_airspace_areas` (its contour-filtering
  stage), `_calculate_centroid` and `map_pixel_to_latlon` are translated
  directly from the Python source.

Floating-point arithmetic of the source is modelled by exact arithmetic:
rationals where the source computes rational values, real numbers where the
source takes square roots (`cv2.arcLength`).
-/

namespace VFRChart

open scoped List

/-- Pixel point: OpenCV contours carry integer pixel coordinates. -/
abbrev Pt := ℤ × ℤ

/-- Contour: ordered list of boundary pixel points (closure implicit),
as produced by `cv2.findContours`. -/
abbrev Contour := List Pt

/-- Squared Euclidean distance between two pixel points. -/
def dist2 (a b : Pt) : ℤ := (b.1 - a.1) ^ 2 + (b.2 - a.2) ^ 2

/-- Cross product of `b - a` with `p - a`; its absolute value is twice the
area of the triangle `a b p`, and `|cross| / √(dist2 a b)` is the distance
from `p` to the line through `a` and `b`. -/
def cross (a b p : Pt) : ℤ := (b.1 - a.1) * (p.2 - a.2) - (b.2 - a.2) * (p.1 - a.1)

/-- Head of a point list with default `(0, 0)`. -/
def hdP (l : List Pt) : Pt := l.headD (0, 0)

/-- Last element of a point list with default `(0, 0)`. -/
def lstP (l : List Pt) : Pt := l.getLastD (0, 0)

/-- Squared deviation measure of `p` from the chord `a`-`b`, used by the
Douglas-Peucker recursion.  For `a ≠ b` the perpendicular distance of `p`
from the chord exceeds `ε` iff `(cross a b p)^2 > ε^2 * dist2 a b`; for the
degenerate chord `a = b` the distance from the point `a` exceeds `ε` iff
`dist2 a p > ε^2`. -/
def devsq (a b p : Pt) : ℤ := if a = b then dist2 a p else (cross a b p) ^ 2

/-- Interior points of a list (everything strictly between head and last). -/
def midOf (l : List Pt) : List Pt := (l.drop 1).dropLast

/-- Squared deviations of the interior points from the chord of `l`. -/
def valsOf (l : List Pt) : List ℤ := (midOf l).map (devsq (hdP l) (lstP l))

/-- Index of the first maximal element of an integer list (`0` on `[]`). -/
def idxOfMax : List ℤ → ℕ
  | [] => 0
  | v :: vs => if vs.getD (idxOfMax vs) v > v then idxOfMax vs + 1 else 0

/-- Index (within the interior of `l`) of the first interior point of maximal
deviation from the chord of `l`. -/
def splitIdx (l : List Pt) : ℕ := idxOfMax (valsOf l)

/-- Maximal squared deviation of an interior point of `l` from its chord. -/
def maxVal (l : List Pt) : ℤ := (valsOf l).getD (splitIdx l) 0

theorem length_midOf (l : List Pt) : (midOf l).length = l.length - 2 := by
  simp [midOf]
  omega

theorem length_valsOf (l : List Pt) : (valsOf l).length = l.length - 2 := by
  simp [valsOf, length_midOf]

theorem valsOf_ne_nil {l : List Pt} (h : 3 ≤ l.length) : valsOf l ≠ [] := by
  have := length_valsOf l
  intro hc
  rw [hc] at this
  simp at this
  omega

theorem idxOfMax_lt : ∀ (l : List ℤ), l ≠ [] → idxOfMax l < l.length := by
  intro l
  induction l with
  | nil => intro h; exact absurd rfl h
  | cons v vs ih =>
    intro _
    by_cases hvs : vs = []
    · subst hvs
      simp [idxOfMax]
    · have hlt := ih hvs
      rw [idxOfMax]
      split
      · simpa using hlt
      · simp

theorem getD_eq_getD_of_lt {l : List ℤ} {j : ℕ} (h : j < l.length) (d d' : ℤ) :
    l.getD j d = l.getD j d' := by
  rw [List.getD_eq_getElem l d h, List.getD_eq_getElem l d' h]

/-- Every element of a list is at most the value at `idxOfMax`. -/
theorem le_val_idxOfMax : ∀ (l : List ℤ), ∀ x ∈ l, x ≤ l.getD (idxOfMax l) 0 := by
  intro l
  induction l with
  | nil => intro x hx; simp at hx
  | cons v vs ih =>
    intro x hx
    by_cases hvs : vs = []
    · subst hvs
      simp at hx
      subst hx
      simp [idxOfMax]
    · have hlt := idxOfMax_lt vs hvs
      have hgd : vs.getD (idxOfMax vs) v = vs.getD (idxOfMax vs) 0 :=
        getD_eq_getD_of_lt hlt v 0
      rw [idxOfMax]
      rcases List.mem_cons.mp hx with hx | hx
      · subst hx
        split
        · rename_i hcond
          rw [hgd] at hcond
          simpa using le_of_lt hcond
        · simp
      · split
        · simpa using ih x hx
        · rename_i hcond
          rw [hgd] at hcond
          push_neg at hcond
          simpa using le_trans (ih x hx) hcond

/-- Every element strictly before `idxOfMax` is strictly below the value at
`idxOfMax`: the first maximum is selected. -/
theorem lt_val_of_mem_take_idxOfMax :
    ∀ (l : List ℤ), ∀ x ∈ l.take (idxOfMax l), x < l.getD (idxOfMax l) 0 := by
  intro l
  induction l with
  | nil => intro x hx; simp at hx
  | cons v vs ih =>
    intro x hx
    by_cases hvs : vs = []
    · subst hvs
      simp [idxOfMax] at hx
    · have hlt := idxOfMax_lt vs hvs
      have hgd : vs.getD (idxOfMax vs) v = vs.getD (idxOfMax vs) 0 :=
        getD_eq_getD_of_lt hlt v 0
      by_cases hcond : vs.getD (idxOfMax vs) v > v
      · rw [idxOfMax, if_pos hcond] at hx ⊢
        rw [hgd] at hcond
        simp only [List.take_succ_cons] at hx
        rcases List.mem_cons.mp hx with hx | hx
        · subst hx
          simpa using hcond
        · simpa using ih x hx
      · rw [idxOfMax, if_neg hcond] at hx
        simp at hx

/-- Value of a list at the length of its left appendee. -/
theorem getD_append_middle {β : Type*} :
    ∀ (u : List β) (x : β) (v : List β) (d : β), (u ++ x :: v).getD u.length d = x := by
  intro u
  induction u with
  | nil => intro x v d; simp
  | cons y u ih => intro x v d; simpa using ih x v d

/-- If everything left of `m` is strictly below `m` and everything right of it
is at most `m`, then `idxOfMax` selects exactly the position of `m`. -/
theorem idxOfMax_middle :
    ∀ (u : List ℤ) (m : ℤ) (v : List ℤ), (∀ x ∈ u, x < m) → (∀ x ∈ v, x ≤ m) →
      idxOfMax (u ++ m :: v) = u.length := by
  intro u
  induction u with
  | nil =>
    intro m v _ hv
    simp only [List.nil_append, List.length_nil]
    by_cases hvnil : v = []
    · subst hvnil; simp [idxOfMax]
    · have hlt := idxOfMax_lt v hvnil
      rw [idxOfMax]
      rw [if_neg]
      push_neg
      rw [getD_eq_getD_of_lt hlt m 0]
      have hmem : v.getD (idxOfMax v) 0 ∈ v := by
        rw [List.getD_eq_getElem v 0 hlt]
        exact List.getElem_mem hlt
      exact hv _ hmem
  | cons y u ih =>
    intro m v hu hv
    have hrec : idxOfMax (u ++ m :: v) = u.length :=
      ih m v (fun x hx => hu x (List.mem_cons_of_mem _ hx)) hv
    have hy : y < m := hu y (List.mem_cons_self _ _)
    rw [List.cons_append, idxOfMax, hrec]
    rw [if_pos]
    · simp
    · rw [getD_append_middle]
      exact hy

section RDP

variable {α : Type*} [LinearOrderedField α]

/-- Threshold against which `devsq` is compared for chord `a`-`b` and squared
tolerance `ε2` (see `devsq`): `ε2 * dist2 a b` for a proper chord, `ε2` for
a degenerate one. -/
def devThreshold (ε2 : α) (a b : Pt) : α :=
  if a = b then ε2 else ε2 * (dist2 a b : α)

theorem devThreshold_mono {ε2' ε2 : α} (h : ε2' ≤ ε2) (a b : Pt) :
    devThreshold ε2' a b ≤ devThreshold ε2 a b := by
  unfold devThreshold
  split
  · exact h
  · have h2 : (0 : α) ≤ (dist2 a b : α) := by
      have h3 : (0 : ℤ) ≤ dist2 a b := by unfold dist2; positivity
      exact_mod_cast h3
    exact mul_le_mul_of_nonneg_right h h2

/-- Ramer-Douglas-Peucker curve simplification, the documented algorithm of
`cv2.approxPolyDP` (and of spec §4.4): keep the first and last points of the
list; if every interior point deviates from the chord by at most the
tolerance, collapse the curve to the chord, otherwise split at the first
interior point of maximal deviation and recurse on both halves.  Distance
comparisons are carried out in squared form (`ε2` is the squared tolerance),
which is equivalent for a nonnegative tolerance. -/
def rdp (ε2 : α) (l : List Pt) : List Pt :=
  if _h : l.length < 3 then l
  else if ((maxVal l : ℤ) : α) > devThreshold ε2 (hdP l) (lstP l) then
    rdp ε2 (l.take (splitIdx l + 2)) ++ (rdp ε2 (l.drop (splitIdx l + 1))).tail
  else [hdP l, lstP l]
termination_by l.length
decreasing_by
  · have h1 : splitIdx l < l.length - 2 := by
      have h2 := idxOfMax_lt (valsOf l) (valsOf_ne_nil (by omega))
      rwa [length_valsOf] at h2
    simp only [List.length_take]
    omega
  · simp only [List.length_drop]
    omega

theorem splitIdx_lt {l : List Pt} (h : ¬ l.length < 3) : splitIdx l < l.length - 2 := by
  have h2 := idxOfMax_lt (valsOf l) (valsOf_ne_nil (by omega))
  rwa [length_valsOf] at h2

theorem rdp_short (ε2 : α) {l : List Pt} (h : l.length < 3) : rdp ε2 l = l := by
  rw [rdp, dif_pos h]

theorem rdp_split (ε2 : α) {l : List Pt} (h : ¬ l.length < 3)
    (hgt : ((maxVal l : ℤ) : α) > devThreshold ε2 (hdP l) (lstP l)) :
    rdp ε2 l = rdp ε2 (l.take (splitIdx l + 2)) ++ (rdp ε2 (l.drop (splitIdx l + 1))).tail := by
  rw [rdp, dif_neg h, if_pos hgt]

theorem rdp_collapse (ε2 : α) {l : List Pt} (h : ¬ l.length < 3)
    (hle : ¬ ((maxVal l : ℤ) : α) > devThreshold ε2 (hdP l) (lstP l)) :
    rdp ε2 l = [hdP l, lstP l] := by
  rw [rdp, dif_neg h, if_neg hle]

end RDP

/-! Small helper lemmas about heads, lasts and interiors of point lists. -/

theorem hdP_cons (a : Pt) (l : List Pt) : hdP (a :: l) = a := rfl

theorem hdP_append {l₁ l₂ : List Pt} (h : l₁ ≠ []) : hdP (l₁ ++ l₂) = hdP l₁ := by
  cases l₁ with
  | nil => exact absurd rfl h
  | cons a t => rfl

theorem hdP_take {l : List Pt} {k : ℕ} (hk : k ≠ 0) : hdP (l.take k) = hdP l := by
  cases l with
  | nil => simp
  | cons a t =>
    cases k with
    | zero => exact absurd rfl hk
    | succ m => rfl

theorem lstP_concat (l : List Pt) (b : Pt) : lstP (l ++ [b]) = b := by
  unfold lstP
  rw [List.getLastD_concat]

theorem lstP_append {l₁ l₂ : List Pt} (h : l₂ ≠ []) : lstP (l₁ ++ l₂) = lstP l₂ := by
  rcases l₂.eq_nil_or_concat with rfl | ⟨t, b, rfl⟩
  · exact absurd rfl h
  · rw [List.concat_eq_append, ← List.append_assoc, lstP_concat, lstP_concat]

theorem lstP_eq_getLast {l : List Pt} (h : l ≠ []) : lstP l = l.getLast h := by
  unfold lstP
  rw [List.getLastD_eq_getLast?, List.getLast?_eq_getLast l h]
  rfl

theorem lstP_tail {l : List Pt} (h : 2 ≤ l.length) : lstP l.tail = lstP l := by
  cases l with
  | nil => simp at h
  | cons a t =>
    cases t with
    | nil => simp at h
    | cons b u =>
      show lstP (b :: u) = lstP (a :: b :: u)
      unfold lstP
      rw [List.getLastD_cons (0, 0) a (b :: u), List.getLastD_cons]
      cases u <;> rfl

theorem lstP_drop {l : List Pt} {k : ℕ} (h : k < l.length) : lstP (l.drop k) = lstP l := by
  have hne : l.drop k ≠ [] := by
    intro hc
    have := List.length_drop k l
    rw [hc] at this
    simp at this
    omega
  conv_rhs => rw [← List.take_append_drop k l]
  rw [lstP_append hne]

theorem lstP_take {l : List Pt} {k : ℕ} (h : k < l.length) : lstP (l.take (k + 1)) = l[k] := by
  rw [List.take_succ, List.getElem?_eq_getElem h]
  simp only [Option.toList_some]
  rw [lstP_concat]

theorem hdP_drop {l : List Pt} {k : ℕ} (h : k < l.length) : hdP (l.drop k) = l[k] := by
  rw [List.drop_eq_getElem_cons h, hdP_cons]

theorem midOf_eq_tail_dropLast (l : List Pt) : midOf l = l.tail.dropLast := by
  rw [midOf, List.drop_one]

theorem eq_hdP_mid_lstP {l : List Pt} (h : 2 ≤ l.length) :
    l = hdP l :: (midOf l ++ [lstP l]) := by
  cases l with
  | nil => simp at h
  | cons a t =>
    have ht : t ≠ [] := by
      intro hc
      rw [hc] at h
      simp at h
    have hlst : lstP (a :: t) = t.getLast ht := by
      rw [lstP_eq_getLast (l := a :: t) (by simp), List.getLast_cons ht]
    rw [hdP_cons, midOf_eq_tail_dropLast, hlst]
    show a :: t = a :: (t.dropLast ++ [t.getLast ht])
    rw [List.dropLast_append_getLast ht]

theorem dropLast_sublist_mono {S L : List Pt} (h : S <+ L) : S.dropLast <+ L.dropLast := by
  rw [← List.reverse_sublist, ← List.tail_reverse, ← List.tail_reverse]
  exact (List.reverse_sublist.mpr h).tail

theorem midOf_sublist_mono {S L : List Pt} (h : S <+ L) : midOf S <+ midOf L := by
  rw [midOf_eq_tail_dropLast, midOf_eq_tail_dropLast]
  exact dropLast_sublist_mono h.tail

theorem midOf_take (l : List Pt) (j : ℕ) (h : j + 2 ≤ l.length) :
    midOf (l.take (j + 2)) = (midOf l).take j := by
  rw [midOf, midOf]
  rw [List.drop_take]
  rw [List.dropLast_eq_take, List.dropLast_eq_take]
  rw [List.length_take, List.length_drop]
  rw [List.take_take, List.take_take]
  congr 1
  omega

section RDPStructure

variable {α : Type*} [LinearOrderedField α]

/-- Core structural facts about `rdp`, proved in one strong induction:
its output is an order-preserving subselection of the input, keeps the first
and last points, and has at least two points whenever the input does. -/
theorem rdp_basic (ε2 : α) (n : ℕ) : ∀ l : List Pt, l.length = n →
    rdp ε2 l <+ l ∧ hdP (rdp ε2 l) = hdP l ∧ lstP (rdp ε2 l) = lstP l ∧
      (2 ≤ l.length → 2 ≤ (rdp ε2 l).length) := by
  induction n using Nat.strong_induction_on with
  | _ n ih =>
  intro l hn
  by_cases h3 : l.length < 3
  · rw [rdp_short ε2 h3]
    exact ⟨List.Sublist.refl l, rfl, rfl, fun h => h⟩
  · by_cases hgt : ((maxVal l : ℤ) : α) > devThreshold ε2 (hdP l) (lstP l)
    · rw [rdp_split ε2 h3 hgt]
      have hjlt : splitIdx l < l.length - 2 := splitIdx_lt h3
      set j := splitIdx l with hj
      have hlen1 : (l.take (j + 2)).length = j + 2 := by
        rw [List.length_take]
        omega
      have hlen2 : (l.drop (j + 1)).length = l.length - (j + 1) := List.length_drop _ _
      obtain ⟨hs1, hh1, hl1, hg1⟩ :=
        ih (l.take (j + 2)).length (by omega) (l.take (j + 2)) rfl
      obtain ⟨hs2, hh2, hl2, hg2⟩ :=
        ih (l.drop (j + 1)).length (by omega) (l.drop (j + 1)) rfl
      have hg1' : 2 ≤ (rdp ε2 (l.take (j + 2))).length := hg1 (by omega)
      have hg2' : 2 ≤ (rdp ε2 (l.drop (j + 1))).length := hg2 (by omega)
      have hS1ne : rdp ε2 (l.take (j + 2)) ≠ [] := by
        intro hc
        rw [hc] at hg1'
        simp at hg1'
      have hS2tne : (rdp ε2 (l.drop (j + 1))).tail ≠ [] := by
        intro hc
        have hlt := List.length_tail (rdp ε2 (l.drop (j + 1)))
        rw [hc] at hlt
        simp at hlt
        omega
      refine ⟨?_, ?_, ?_, ?_⟩
      · have hs2t : (rdp ε2 (l.drop (j + 1))).tail <+ (l.drop (j + 1)).tail := hs2.tail
        have happ := List.Sublist.append hs1 hs2t
        rwa [List.tail_drop, List.take_append_drop] at happ
      · rw [hdP_append hS1ne, hh1, hdP_take (by omega)]
      · rw [lstP_append hS2tne, lstP_tail hg2', hl2, lstP_drop (by omega)]
      · intro _
        rw [List.length_append]
        omega
    · rw [rdp_collapse ε2 h3 hgt]
      refine ⟨?_, rfl, ?_, ?_⟩
      · conv_rhs => rw [eq_hdP_mid_lstP (l := l) (by omega)]
        exact (List.cons_sublist_cons).mpr (List.sublist_append_right _ _)
      · unfold lstP
        rfl
      · intro _
        simp

theorem rdp_sublist (ε2 : α) (l : List Pt) : rdp ε2 l <+ l :=
  (rdp_basic ε2 l.length l rfl).1

theorem rdp_hdP (ε2 : α) (l : List Pt) : hdP (rdp ε2 l) = hdP l :=
  (rdp_basic ε2 l.length l rfl).2.1

theorem rdp_lstP (ε2 : α) (l : List Pt) : lstP (rdp ε2 l) = lstP l :=
  (rdp_basic ε2 l.length l rfl).2.2.1

theorem rdp_length_ge (ε2 : α) {l : List Pt} (h : 2 ≤ l.length) :
    2 ≤ (rdp ε2 l).length :=
  (rdp_basic ε2 l.length l rfl).2.2.2 h

end RDPStructure

section RDPIdem

variable {α : Type*} [LinearOrderedField α]

/-- Fixed-point property of Douglas-Peucker: a second `rdp` pass at any
squared tolerance `ε2' ≤ ε2` leaves the output of a first pass at `ε2`
unchanged. -/
theorem rdp_idem_aux (ε2' ε2 : α) (hε : ε2' ≤ ε2) (n : ℕ) :
    ∀ l : List Pt, l.length = n → rdp ε2' (rdp ε2 l) = rdp ε2 l := by
  induction n using Nat.strong_induction_on with
  | _ n ih =>
  intro l hn
  by_cases h3 : l.length < 3
  · rw [rdp_short ε2 h3, rdp_short ε2' h3]
  · by_cases hgt : ((maxVal l : ℤ) : α) > devThreshold ε2 (hdP l) (lstP l)
    · -- split case: the first pass recurses at the interior point of maximal
      -- deviation; we show the second pass splits at the same point.
      have hjlt : splitIdx l < l.length - 2 := splitIdx_lt h3
      have hjl : splitIdx l + 1 < l.length := by omega
      have hjv : splitIdx l < (valsOf l).length := by
        rw [length_valsOf]
        omega
      have hjm : splitIdx l < (midOf l).length := by
        rw [length_midOf]
        omega
      rw [rdp_split ε2 h3 hgt]
      set j := splitIdx l with hj
      set l₁ := l.take (j + 2) with hl₁
      set l₂ := l.drop (j + 1) with hl₂
      have hlen1 : l₁.length = j + 2 := by
        rw [hl₁, List.length_take]
        omega
      have hlen2 : l₂.length = l.length - (j + 1) := by
        rw [hl₂]
        exact List.length_drop _ _
      set S₁ := rdp ε2 l₁ with hS₁
      set S₂ := rdp ε2 l₂ with hS₂
      have hg1 : 2 ≤ S₁.length := rdp_length_ge ε2 (by omega)
      have hg2 : 2 ≤ S₂.length := rdp_length_ge ε2 (by omega)
      have hS1ne : S₁ ≠ [] := by
        intro hc
        rw [hc] at hg1
        simp at hg1
      have hS2tne : S₂.tail ≠ [] := by
        intro hc
        have hlt := List.length_tail S₂
        rw [hc] at hlt
        simp at hlt
        omega
      -- the junction point of the two halves
      have hp1 : lstP S₁ = l[j + 1] := by
        rw [hS₁, rdp_lstP, hl₁, lstP_take hjl]
      have hp2 : hdP S₂ = l[j + 1] := by
        rw [hS₂, rdp_hdP, hl₂, hdP_drop hjl]
      have ha1 : hdP S₁ = hdP l := by
        rw [hS₁, rdp_hdP, hl₁, hdP_take (by omega)]
      have hb2 : lstP S₂ = lstP l := by
        rw [hS₂, rdp_lstP, hl₂, lstP_drop hjl]
      have hdec1 : S₁ = hdP l :: (midOf S₁ ++ [l[j + 1]]) := by
        conv_lhs => rw [eq_hdP_mid_lstP (l := S₁) hg1]
        rw [ha1, hp1]
      have hdec2 : S₂ = l[j + 1] :: (midOf S₂ ++ [lstP l]) := by
        conv_lhs => rw [eq_hdP_mid_lstP (l := S₂) hg2]
        rw [hp2, hb2]
      have hS2tail : S₂.tail = midOf S₂ ++ [lstP l] := by
        conv_lhs => rw [hdec2]
        rfl
      -- the junction point carries the maximal deviation of the whole list
      set dv := devsq (hdP l) (lstP l) with hdv
      have hvals_map : valsOf l = (midOf l).map dv := rfl
      have hmid_j : (midOf l)[j] = l[j + 1] := by
        simp only [midOf, List.getElem_dropLast, List.getElem_drop]
        simp only [Nat.add_comm 1 j]
      have hjv' : j < (List.map dv (midOf l)).length := hjv
      have hmaxval : maxVal l = dv (l[j + 1]) := by
        rw [maxVal, ← hj, List.getD_eq_getElem _ _ hjv]
        show (List.map dv (midOf l))[j] = dv (l[j + 1])
        rw [List.getElem_map, hmid_j]
      have hub : ∀ x ∈ valsOf l, x ≤ maxVal l := by
        intro x hx
        rw [maxVal, ← hj]
        exact le_val_idxOfMax (valsOf l) x hx
      have hstrict : ∀ x ∈ (valsOf l).take j, x < maxVal l := by
        intro x hx
        rw [maxVal, ← hj]
        rw [hj] at hx
        exact lt_val_of_mem_take_idxOfMax (valsOf l) x hx
      -- interior points of the two halves sit inside the interior of l
      have hm1 : midOf S₁ <+ (midOf l).take j := by
        have h1 : midOf S₁ <+ midOf l₁ := midOf_sublist_mono (rdp_sublist ε2 l₁)
        rwa [hl₁, midOf_take l j (by omega)] at h1
      have hm2 : midOf S₂ <+ midOf l := by
        have h1 : midOf S₂ <+ midOf l₂ := midOf_sublist_mono (rdp_sublist ε2 l₂)
        exact h1.trans (midOf_sublist_mono (List.drop_sublist _ _))
      -- data of the combined output list
      set S := S₁ ++ S₂.tail with hS
      have hS3 : ¬ S.length < 3 := by
        have he1 := List.length_append S₁ S₂.tail
        have he2 := List.length_tail S₂
        rw [← hS] at he1
        omega
      have hShd : hdP S = hdP l := by
        rw [hS, hdP_append hS1ne, ha1]
      have hSlst : lstP S = lstP l := by
        rw [hS, lstP_append hS2tne, lstP_tail hg2, hb2]
      have hSeq : S = hdP l :: ((midOf S₁ ++ l[j + 1] :: midOf S₂) ++ [lstP l]) := by
        rw [hS, hS2tail]
        conv_lhs => rw [hdec1]
        simp [List.append_assoc]
      have hSmid : midOf S = midOf S₁ ++ l[j + 1] :: midOf S₂ := by
        rw [midOf_eq_tail_dropLast, hSeq]
        show ((midOf S₁ ++ l[j + 1] :: midOf S₂) ++ [lstP l]).dropLast
            = midOf S₁ ++ l[j + 1] :: midOf S₂
        rw [List.dropLast_concat]
      have hSvals : valsOf S
          = (midOf S₁).map dv ++ dv (l[j + 1]) :: (midOf S₂).map dv := by
        rw [valsOf, hShd, hSlst, hSmid, List.map_append, List.map_cons]
      -- the second pass selects the same split point
      have hu : ∀ x ∈ (midOf S₁).map dv, x < dv (l[j + 1]) := by
        intro x hx
        obtain ⟨q, hq, rfl⟩ := List.mem_map.mp hx
        have hq' : q ∈ (midOf l).take j := hm1.subset hq
        have hx' : dv q ∈ (valsOf l).take j := by
          rw [hvals_map, ← List.map_take]
          exact List.mem_map_of_mem dv hq'
        rw [← hmaxval]
        exact hstrict _ hx'
      have hv : ∀ x ∈ (midOf S₂).map dv, x ≤ dv (l[j + 1]) := by
        intro x hx
        obtain ⟨q, hq, rfl⟩ := List.mem_map.mp hx
        have hq' : q ∈ midOf l := hm2.subset hq
        have hx' : dv q ∈ valsOf l := by
          rw [hvals_map]
          exact List.mem_map_of_mem dv hq'
        rw [← hmaxval]
        exact hub _ hx'
      have hsplitS : splitIdx S = (midOf S₁).length := by
        rw [splitIdx, hSvals, idxOfMax_middle _ _ _ hu hv, List.length_map]
      have hmaxS : maxVal S = maxVal l := by
        have hlenu : ((midOf S₁).map dv).length = (midOf S₁).length :=
          List.length_map _ _
        rw [maxVal, hsplitS, hSvals, ← hlenu, getD_append_middle, hmaxval]
      -- second pass: same split, then the induction hypothesis finishes
      have hgt' : ((maxVal S : ℤ) : α) > devThreshold ε2' (hdP S) (lstP S) := by
        rw [hmaxS, hShd, hSlst]
        exact lt_of_le_of_lt (devThreshold_mono hε _ _) hgt
      rw [rdp_split ε2' hS3 hgt']
      have hlenS1 : S₁.length = (midOf S₁).length + 2 := by
        conv_lhs => rw [hdec1]
        simp
      have htake : S.take (splitIdx S + 2) = S₁ := by
        rw [hsplitS, hS]
        exact List.take_left' (by omega)
      have hdrop : S.drop (splitIdx S + 1) = S₂ := by
        rw [hsplitS, hS, List.drop_append_eq_append_drop]
        have h0 : (midOf S₁).length + 1 - S₁.length = 0 := by omega
        rw [h0, List.drop_zero]
        have hS1drop : S₁.drop ((midOf S₁).length + 1) = [l[j + 1]] := by
          set k := (midOf S₁).length with hk
          conv_lhs => rw [hdec1]
          rw [List.drop_succ_cons]
          exact List.drop_left' hk.symm
        rw [hS1drop, hS2tail, List.singleton_append]
        exact hdec2.symm
      rw [htake, hdrop]
      have hIH1 : rdp ε2' S₁ = S₁ := by
        rw [hS₁]
        exact ih l₁.length (by omega) l₁ rfl
      have hIH2 : rdp ε2' S₂ = S₂ := by
        rw [hS₂]
        exact ih l₂.length (by omega) l₂ rfl
      rw [hIH1, hIH2]
    · -- collapse case: output is a two-point list, which is a fixed point
      rw [rdp_collapse ε2 h3 hgt]
      exact rdp_short ε2' (by simp)

/-- A second `rdp` pass at a tolerance no larger than the first is the
identity on the first pass's output. -/
theorem rdp_idem (ε2' ε2 : α) (hε : ε2' ≤ ε2) (l : List Pt) :
    rdp ε2' (rdp ε2 l) = rdp ε2 l :=
  rdp_idem_aux ε2' ε2 hε l.length l rfl

end RDPIdem

noncomputable section ArcLength

/-- Embedding of an integer pixel point into the Euclidean plane (modelled
as the complex plane, whose metric is the Euclidean one). -/
def toC (p : Pt) : ℂ := ⟨(p.1 : ℝ), (p.2 : ℝ)⟩

/-- Euclidean distance between two pixel points. -/
def ptDist (a b : Pt) : ℝ := dist (toC a) (toC b)

theorem ptDist_eq_sqrt (a b : Pt) : ptDist a b = Real.sqrt ((dist2 a b : ℝ)) := by
  rw [ptDist, Complex.dist_eq, Complex.abs_apply, Complex.normSq_apply]
  congr 1
  simp only [toC, Complex.sub_re, Complex.sub_im, dist2]
  push_cast
  ring

theorem ptDist_nonneg (a b : Pt) : 0 ≤ ptDist a b := dist_nonneg

theorem ptDist_self (a : Pt) : ptDist a a = 0 := dist_self _

theorem ptDist_triangle (a b c : Pt) : ptDist a c ≤ ptDist a b + ptDist b c :=
  dist_triangle _ _ _

/-- Exact value of `ptDist` when the squared distance is a perfect square. -/
theorem ptDist_of_sq {a b : Pt} (k : ℕ) (h : dist2 a b = (k : ℤ) ^ 2) :
    ptDist a b = k := by
  rw [ptDist_eq_sqrt, h]
  push_cast
  rw [Real.sqrt_sq (by positivity)]

/-- Euclidean length of the open polyline through the given points. -/
def pathLen : List Pt → ℝ
  | [] => 0
  | [_] => 0
  | a :: b :: rest => ptDist a b + pathLen (b :: rest)

theorem pathLen_nonneg : ∀ l : List Pt, 0 ≤ pathLen l
  | [] => le_refl 0
  | [_] => le_refl 0
  | a :: b :: rest => by
    rw [pathLen]
    have h1 := ptDist_nonneg a b
    have h2 := pathLen_nonneg (b :: rest)
    linarith

/-- The straight chord between the endpoints is never longer than the path. -/
theorem chord_le_pathLen : ∀ l : List Pt, l ≠ [] → ptDist (hdP l) (lstP l) ≤ pathLen l
  | [], h => absurd rfl h
  | [a], _ => by
    simp only [hdP_cons]
    rw [show lstP [a] = a from rfl, ptDist_self, pathLen]
  | a :: b :: rest, _ => by
    rw [pathLen, hdP_cons]
    have hl : lstP (a :: b :: rest) = lstP (b :: rest) :=
      (lstP_tail (l := a :: b :: rest) (by simp)).symm
    rw [hl]
    have h1 := ptDist_triangle a b (lstP (b :: rest))
    have h2 := chord_le_pathLen (b :: rest) (by simp)
    rw [hdP_cons] at h2
    linarith

/-- Path length is additive across a shared junction point. -/
theorem pathLen_junction : ∀ xs : List Pt, ∀ ys : List Pt, xs ≠ [] → ys ≠ [] →
    lstP xs = hdP ys → pathLen (xs ++ ys.tail) = pathLen xs + pathLen ys := by
  intro xs
  induction xs with
  | nil => intro ys h _ _; exact absurd rfl h
  | cons x t ih =>
    intro ys _ hys hlst
    cases t with
    | nil =>
      have hx : x = hdP ys := by
        rw [← hlst]
        rfl
      have hyd : ys = hdP ys :: ys.tail := by
        cases ys with
        | nil => exact absurd rfl hys
        | cons y u => rfl
      have h0 : pathLen [x] = 0 := by simp [pathLen]
      rw [List.singleton_append]
      conv_rhs => rw [hyd, ← hx]
      rw [h0]
      ring
    | cons x₂ t₂ =>
      have hlst2 : lstP (x₂ :: t₂) = hdP ys := by
        rw [← hlst]
        exact lstP_tail (l := x :: x₂ :: t₂) (by simp)
      have hrec := ih ys (by simp) hys hlst2
      show ptDist x x₂ + pathLen ((x₂ :: t₂) ++ ys.tail)
          = ptDist x x₂ + pathLen (x₂ :: t₂) + pathLen ys
      rw [hrec]
      ring

/-- Douglas-Peucker never increases the open path length: each collapsed
stretch is replaced by its chord. -/
theorem rdp_pathLen_le (ε2 : ℝ) (n : ℕ) : ∀ l : List Pt, l.length = n →
    pathLen (rdp ε2 l) ≤ pathLen l := by
  induction n using Nat.strong_induction_on with
  | _ n ih =>
  intro l hn
  by_cases h3 : l.length < 3
  · rw [rdp_short ε2 h3]
  · by_cases hgt : ((maxVal l : ℤ) : ℝ) > devThreshold ε2 (hdP l) (lstP l)
    · have hjlt : splitIdx l < l.length - 2 := splitIdx_lt h3
      have hjl : splitIdx l + 1 < l.length := by omega
      rw [rdp_split ε2 h3 hgt]
      set j := splitIdx l with hj
      set l₁ := l.take (j + 2) with hl₁
      set l₂ := l.drop (j + 1) with hl₂
      have hlen1 : l₁.length = j + 2 := by
        rw [hl₁, List.length_take]
        omega
      have hlen2 : l₂.length = l.length - (j + 1) := by
        rw [hl₂]
        exact List.length_drop _ _
      set S₁ := rdp ε2 l₁ with hS₁
      set S₂ := rdp ε2 l₂ with hS₂
      have hg1 : 2 ≤ S₁.length := rdp_length_ge ε2 (by omega)
      have hg2 : 2 ≤ S₂.length := rdp_length_ge ε2 (by omega)
      have hS1ne : S₁ ≠ [] := by
        intro hc
        rw [hc] at hg1
        simp at hg1
      have hS2ne : S₂ ≠ [] := by
        intro hc
        rw [hc] at hg2
        simp at hg2
      have hl₁ne : l₁ ≠ [] := by
        intro hc
        rw [hc] at hlen1
        simp at hlen1
      have hl₂ne : l₂ ≠ [] := by
        intro hc
        rw [hc] at hlen2
        simp at hlen2
        omega
      have hjunS : lstP S₁ = hdP S₂ := by
        rw [hS₁, rdp_lstP, hS₂, rdp_hdP, hl₁, hl₂, lstP_take hjl, hdP_drop hjl]
      have hjunL : lstP l₁ = hdP l₂ := by
        rw [hl₁, hl₂, lstP_take hjl, hdP_drop hjl]
      have hsplit1 := pathLen_junction S₁ S₂ hS1ne hS2ne hjunS
      have hsplit2 := pathLen_junction l₁ l₂ hl₁ne hl₂ne hjunL
      have hIH1 : pathLen S₁ ≤ pathLen l₁ := ih l₁.length (by omega) l₁ rfl
      have hIH2 : pathLen S₂ ≤ pathLen l₂ := ih l₂.length (by omega) l₂ rfl
      have hwhole : l₁ ++ l₂.tail = l := by
        rw [hl₁, hl₂, List.tail_drop, List.take_append_drop]
      rw [hwhole] at hsplit2
      rw [hsplit1, hsplit2]
      linarith
    · rw [rdp_collapse ε2 h3 hgt]
      have hne : l ≠ [] := by
        intro hc
        rw [hc] at h3
        simp at h3
      have hch := chord_le_pathLen l hne
      have hpl : pathLen [hdP l, lstP l] = ptDist (hdP l) (lstP l) := by
        rw [pathLen, pathLen]
        ring
      rw [hpl]
      exact hch

/-- Model of `cv2.arcLength`: total Euclidean length of the polyline through
the points, plus the closing segment back to the first point when `closed`
is true. -/
def arcLength (c : Contour) (closed : Bool) : ℝ :=
  if closed then pathLen c + (if 2 ≤ c.length then ptDist (lstP c) (hdP c) else 0)
  else pathLen c

theorem arcLength_nonneg (c : Contour) (closed : Bool) : 0 ≤ arcLength c closed := by
  unfold arcLength
  have h1 := pathLen_nonneg c
  split
  · split
    · have h2 := ptDist_nonneg (lstP c) (hdP c)
      linarith
    · linarith
  · exact h1

/-- Simplification never increases the closed perimeter. -/
theorem arcLength_rdp_le (ε2 : ℝ) (c : Contour) :
    arcLength (rdp ε2 c) true ≤ arcLength c true := by
  by_cases h2 : 2 ≤ c.length
  · have hrl : 2 ≤ (rdp ε2 c).length := rdp_length_ge ε2 h2
    unfold arcLength
    rw [if_pos rfl, if_pos rfl, if_pos h2, if_pos hrl, rdp_hdP, rdp_lstP]
    have := rdp_pathLen_le ε2 c.length c rfl
    linarith
  · have h3 : c.length < 3 := by omega
    rw [rdp_short ε2 h3]

end ArcLength

/-- Twice the signed shoelace area of the closed polygon through the points:
`Σ (x_i * y_{i+1} - x_{i+1} * y_i)` with indices taken modulo the length. -/
def shoelace (c : Contour) : ℤ :=
  ((c.zip (c.rotate 1)).map (fun pq => pq.1.1 * pq.2.2 - pq.2.1 * pq.1.2)).sum

/-- Model of `cv2.contourArea`: absolute value of the signed shoelace area of
the polygon through the contour points. -/
def contourArea (c : Contour) : ℚ := ((shoelace c).natAbs : ℚ) / 2

/-- Model of `cv2.boundingRect`: the minimal axis-aligned rectangle
`(x, y, width, height)` containing the points, with OpenCV's convention
`width = max - min + 1` (likewise for height); `(0,0,0,0)` on no points. -/
def boundingRect (c : Contour) : ℤ × ℤ × ℤ × ℤ :=
  match c with
  | [] => (0, 0, 0, 0)
  | p :: ps =>
    let xmin := ps.foldl (fun m q => min m q.1) p.1
    let xmax := ps.foldl (fun m q => max m q.1) p.1
    let ymin := ps.foldl (fun m q => min m q.2) p.2
    let ymax := ps.foldl (fun m q => max m q.2) p.2
    (xmin, ymin, xmax - xmin + 1, ymax - ymin + 1)

/-- Translation of `AirspaceVertexDetector._calculate_centroid`
(`airspace_vertex_detector.py`, lines 164-175): unweighted arithmetic mean of
the vertex coordinates, and `(0, 0)` for the empty vertex list. -/
def calculate_centroid (vertices : List Pt) : ℚ × ℚ :=
  if vertices = [] then (0, 0)
  else ((((vertices.map Prod.fst).sum : ℤ) : ℚ) / (vertices.length : ℚ),
        (((vertices.map Prod.snd).sum : ℤ) : ℚ) / (vertices.length : ℚ))

/-- Modelled from the spec (§4.5): the *area-weighted* polygon centroid which
the spec contrasts with the implemented vertex mean, written with the
standard shoelace-based formula `Cx = Σ (x_i + x_{i+1}) · w_i / (6A)` where
`w_i = x_i y_{i+1} - x_{i+1} y_i` and `2A = Σ w_i` (likewise for `Cy`);
`(0, 0)` for a degenerate polygon of zero signed area. -/
def polygon_centroid (vs : List Pt) : ℚ × ℚ :=
  let a2 : ℚ := ((shoelace vs : ℤ) : ℚ)
  if a2 = 0 then (0, 0)
  else
    let pairs := vs.zip (vs.rotate 1)
    let cx : ℚ :=
      (((pairs.map (fun pq => (pq.1.1 + pq.2.1) * (pq.1.1 * pq.2.2 - pq.2.1 * pq.1.2))).sum : ℤ) : ℚ)
    let cy : ℚ :=
      (((pairs.map (fun pq => (pq.1.2 + pq.2.2) * (pq.1.1 * pq.2.2 - pq.2.1 * pq.1.2))).sum : ℤ) : ℚ)
    (cx / (3 * a2), cy / (3 * a2))

/-- Translation of `ChartPreprocessor.map_pixel_to_latlon`
(`chart_preprocessing.py`, lines 282-320): affine mapping from pixel
coordinates to latitude/longitude, where `height`/`width` are the (positive)
dimensions of the loaded image.  The code performs no validation of the
bounds and has no failure path: it returns one `(lat, lon)` pair per input
pixel, in input order. -/
def map_pixel_to_latlon (pixel_coords : List (ℚ × ℚ))
    (north south east west : ℚ) (height width : ℕ) : List (ℚ × ℚ) :=
  let lat_scale := (north - south) / (height : ℚ)
  let lon_scale := (east - west) / (width : ℚ)
  pixel_coords.map (fun xy => (north - xy.2 * lat_scale, west + xy.1 * lon_scale))

/-- The hard-coded minimum contour area of `detect_airspace_areas`
(`airspace_vertex_detector.py`, line 99). -/
def min_area : ℚ := 1000

/-- Contour filter of `detect_airspace_areas` (line 100): keep exactly the
contours whose `cv2.contourArea` strictly exceeds `min_area`. -/
def filter_contours_by_area (contours : List Contour) : List Contour :=
  contours.filter (fun c => decide (min_area < contourArea c))

/-- Per-class contour handling of `detect_airspace_areas` (lines 96-107):
each class's traced component contours are filtered by the minimum area, and
a class with no surviving contour is stored with the empty list rather than
raising an error.  Mask construction and boundary tracing themselves are
performed by OpenCV (`cv2.inRange`, `cv2.morphologyEx`, `cv2.findContours`);
the input here is the per-class list of traced component contours. -/
def detect_airspace_areas (classContours : List (String × List Contour)) :
    List (String × List Contour) :=
  classContours.map (fun tc =>
    if filter_contours_by_area tc.2 ≠ [] then (tc.1, filter_contours_by_area tc.2)
    else (tc.1, []))

noncomputable section Pipeline

/-- Model of `cv2.approxPolyDP`: Douglas-Peucker simplification of the curve
with tolerance `ε` (compared in squared form, which agrees with the distance
comparison for `ε ≥ 0`; the Boolean is the curve-closure flag of the OpenCV
call, which does not change which points are selected in this model). -/
def approxPolyDP (curve : Contour) (ε : ℝ) (_closed : Bool) : Contour :=
  rdp (ε ^ 2) curve

/-- One polygon record of `extract_polygon_vertices` (the Python dict
`polygon_data`, lines 143-156). -/
structure PolygonData where
  id : ℕ
  vertices : List Pt
  num_vertices : ℕ
  area : ℚ
  perimeter : ℝ
  bounding_box : ℤ × ℤ × ℤ × ℤ
  centroid : ℚ × ℚ

/-- Body of the per-contour loop of `extract_polygon_vertices`
(`airspace_vertex_detector.py`, lines 128-158): simplify with tolerance
`epsilon_factor * cv2.arcLength(contour, True)`, keep the candidate only if
it has at least `min_vertices` vertices, and record the area, perimeter and
bounding box of the *original* contour together with the centroid of the
simplified vertex list; `i` is the 0-based `enumerate` index, recorded as
`id = i + 1`. -/
def processContour (epsilon_factor : ℝ) (min_vertices : ℕ) (i : ℕ)
    (contour : Contour) : Option PolygonData :=
  let epsilon := epsilon_factor * arcLength contour true
  let approx_polygon := approxPolyDP contour epsilon true
  if min_vertices ≤ approx_polygon.length then
    some { id := i + 1
           vertices := approx_polygon
           num_vertices := approx_polygon.length
           area := contourArea contour
           perimeter := arcLength contour true
           bounding_box := boundingRect contour
           centroid := calculate_centroid approx_polygon }
  else none

/-- Per-class loop of `extract_polygon_vertices` (lines 126-158), with `i`
the running `enumerate` index. -/
def extractClassAux (f : ℝ) (mv : ℕ) : ℕ → List Contour → List PolygonData
  | _, [] => []
  | i, c :: cs =>
    match processContour f mv i c with
    | some pd => pd :: extractClassAux f mv (i + 1) cs
    | none => extractClassAux f mv (i + 1) cs

/-- Polygon records of one class, in contour order, ids starting at 1. -/
def extractClass (f : ℝ) (mv : ℕ) (contours : List Contour) : List PolygonData :=
  extractClassAux f mv 0 contours

/-- Translation of `AirspaceVertexDetector.extract_polygon_vertices`
(lines 109-162) as a function of the per-class contour store: classes whose
stored contour list is empty are skipped entirely
(`if not contours: continue`), every other class is mapped to its polygon
list — even when that list turns out empty. -/
def extract_polygon_vertices (epsilon_factor : ℝ) (min_vertices : ℕ)
    (airspace_polygons : List (String × List Contour)) :
    List (String × List PolygonData) :=
  airspace_polygons.filterMap (fun tc =>
    if tc.2 = [] then none
    else some (tc.1, extractClass epsilon_factor min_vertices tc.2))

/-- Relevant state of an `AirspaceVertexDetector` object: the loaded source
image, the per-class contour store filled by `detect_airspace_areas`, and
the polygon-record store filled by `extract_polygon_vertices`. -/
structure DetectorState (Img : Type*) where
  original_image : Img
  airspace_polygons : List (String × List Contour)
  vertex_data : List (String × List PolygonData)

/-- The method `extract_polygon_vertices` as a state transformer: it
overwrites `self.vertex_data` from `self.airspace_polygons` and touches
nothing else. -/
def extract_method {Img : Type*} (epsilon_factor : ℝ) (min_vertices : ℕ)
    (s : DetectorState Img) : DetectorState Img :=
  { s with
    vertex_data :=
      extract_polygon_vertices epsilon_factor min_vertices s.airspace_polygons }

end Pipeline

/-! Structural lemmas about the extraction pipeline. -/

theorem processContour_some {f : ℝ} {mv : ℕ} {i : ℕ} {c : Contour}
    {pd : PolygonData} (h : processContour f mv i c = some pd) :
    pd.id = i + 1 ∧
    pd.vertices = approxPolyDP c (f * arcLength c true) true ∧
    pd.num_vertices = pd.vertices.length ∧
    mv ≤ pd.vertices.length ∧
    pd.area = contourArea c ∧
    pd.perimeter = arcLength c true ∧
    pd.bounding_box = boundingRect c ∧
    pd.centroid = calculate_centroid pd.vertices := by
  simp only [processContour] at h
  split at h
  · rename_i hge
    obtain rfl := (Option.some_inj.mp h).symm
    refine ⟨rfl, rfl, rfl, hge, rfl, rfl, rfl, rfl⟩
  · exact absurd h (by simp)

theorem extractClassAux_mem {f : ℝ} {mv : ℕ} :
    ∀ (cs : List Contour) (i : ℕ) (pd : PolygonData),
      pd ∈ extractClassAux f mv i cs →
      ∃ k, ∃ hk : k < cs.length, processContour f mv (i + k) cs[k] = some pd := by
  intro cs
  induction cs with
  | nil =>
    intro i pd h
    simp [extractClassAux] at h
  | cons c cs ih =>
    intro i pd h
    rw [extractClassAux] at h
    cases hp : processContour f mv i c with
    | some pd' =>
      rw [hp] at h
      rcases List.mem_cons.mp h with rfl | h2
      · exact ⟨0, by simp, by simpa using hp⟩
      · obtain ⟨k, hk, hpk⟩ := ih (i + 1) pd h2
        refine ⟨k + 1, by simpa using hk, ?_⟩
        rw [show i + (k + 1) = i + 1 + k from by omega]
        simpa using hpk
    | none =>
      rw [hp] at h
      obtain ⟨k, hk, hpk⟩ := ih (i + 1) pd h
      refine ⟨k + 1, by simpa using hk, ?_⟩
      rw [show i + (k + 1) = i + 1 + k from by omega]
      simpa using hpk

theorem extractClassAux_id_lb {f : ℝ} {mv : ℕ} :
    ∀ (cs : List Contour) (i : ℕ) (pd : PolygonData),
      pd ∈ extractClassAux f mv i cs → i + 1 ≤ pd.id := by
  intro cs
  induction cs with
  | nil =>
    intro i pd h
    simp [extractClassAux] at h
  | cons c cs ih =>
    intro i pd h
    rw [extractClassAux] at h
    cases hp : processContour f mv i c with
    | some pd' =>
      rw [hp] at h
      rcases List.mem_cons.mp h with rfl | h2
      · rw [(processContour_some hp).1]
      · have := ih (i + 1) pd h2
        omega
    | none =>
      rw [hp] at h
      have := ih (i + 1) pd h
      omega

theorem extractClassAux_pairwise {f : ℝ} {mv : ℕ} :
    ∀ (cs : List Contour) (i : ℕ),
      List.Pairwise (fun a b => a.id < b.id) (extractClassAux f mv i cs) := by
  intro cs
  induction cs with
  | nil =>
    intro i
    simp [extractClassAux]
  | cons c cs ih =>
    intro i
    rw [extractClassAux]
    cases hp : processContour f mv i c with
    | some pd' =>
      refine List.pairwise_cons.mpr ⟨?_, ih (i + 1)⟩
      intro b hb
      have hlb := extractClassAux_id_lb cs (i + 1) b hb
      rw [(processContour_some hp).1]
      omega
    | none => exact ih (i + 1)

theorem mem_extract_iff {f : ℝ} {mv : ℕ} {aps : List (String × List Contour)}
    {t : String} {polys : List PolygonData} :
    (t, polys) ∈ extract_polygon_vertices f mv aps ↔
      ∃ cs, (t, cs) ∈ aps ∧ cs ≠ [] ∧ polys = extractClass f mv cs := by
  rw [extract_polygon_vertices, List.mem_filterMap]
  constructor
  · rintro ⟨⟨t', cs⟩, hmem, hsome⟩
    by_cases hcs : cs = []
    · simp [hcs] at hsome
    · rw [if_neg (by simpa using hcs)] at hsome
      obtain ⟨rfl, rfl⟩ := Prod.mk.injEq .. ▸ Option.some_inj.mp hsome
      exact ⟨cs, hmem, hcs, rfl⟩
  · rintro ⟨cs, hmem, hcs, rfl⟩
    exact ⟨(t, cs), hmem, by rw [if_neg (by simpa using hcs)]⟩

theorem nodup_keys_val_unique {γ δ : Type*} :
    ∀ (l : List (γ × δ)), (l.map Prod.fst).Nodup →
      ∀ (t : γ) (a b : δ), (t, a) ∈ l → (t, b) ∈ l → a = b := by
  intro l
  induction l with
  | nil => intro _ t a b ha _; simp at ha
  | cons p ps ih =>
    intro hnd t a b ha hb
    rw [List.map_cons, List.nodup_cons] at hnd
    rcases List.mem_cons.mp ha with ha1 | ha2 <;>
      rcases List.mem_cons.mp hb with hb1 | hb2
    · rw [← ha1] at hb1
      exact (Prod.mk.injEq .. ▸ hb1).2.symm
    · exfalso
      apply hnd.1
      rw [show p.1 = t from by rw [← ha1]]
      exact List.mem_map_of_mem Prod.fst hb2
    · exfalso
      apply hnd.1
      rw [show p.1 = t from by rw [← hb1]]
      exact List.mem_map_of_mem Prod.fst ha2
    · exact ih hnd.2 t a b ha2 hb2

/-! Concrete test contours and their pipeline evaluations. -/

/-- Test contour: a 100x100 axis-aligned square with a shallow rectangular
notch (2 px deep, 20 px wide) in its bottom edge.  All edges are
axis-aligned, so its perimeter is the integer 404. -/
def notchSquare : Contour :=
  [(0, 0), (40, 0), (40, 2), (60, 2), (60, 0), (100, 0), (100, 100), (0, 100)]

/-- The simplified vertex list Douglas-Peucker produces on `notchSquare` at
the pipeline's default tolerance: the plain square, the notch removed. -/
def notchSquareSimpl : Contour := [(0, 0), (100, 0), (100, 100), (0, 100)]

/-- Two-point contour: simplification keeps exactly its two points, which
fails the default `min_vertices = 3` test. -/
def twoPt : Contour := [(0, 0), (5, 0)]

theorem arcLength_notchSquare : arcLength notchSquare true = 404 := by
  have e1 : ptDist (0, 0) (40, 0) = ((40 : ℕ) : ℝ) := ptDist_of_sq 40 (by decide)
  have e2 : ptDist (40, 0) (40, 2) = ((2 : ℕ) : ℝ) := ptDist_of_sq 2 (by decide)
  have e3 : ptDist (40, 2) (60, 2) = ((20 : ℕ) : ℝ) := ptDist_of_sq 20 (by decide)
  have e4 : ptDist (60, 2) (60, 0) = ((2 : ℕ) : ℝ) := ptDist_of_sq 2 (by decide)
  have e5 : ptDist (60, 0) (100, 0) = ((40 : ℕ) : ℝ) := ptDist_of_sq 40 (by decide)
  have e6 : ptDist (100, 0) (100, 100) = ((100 : ℕ) : ℝ) := ptDist_of_sq 100 (by decide)
  have e7 : ptDist (100, 100) (0, 100) = ((100 : ℕ) : ℝ) := ptDist_of_sq 100 (by decide)
  have e8 : ptDist (lstP notchSquare) (hdP notchSquare) = ((100 : ℕ) : ℝ) := by
    show ptDist (0, 100) (0, 0) = ((100 : ℕ) : ℝ)
    exact ptDist_of_sq 100 (by decide)
  rw [arcLength, if_pos rfl, if_pos (by norm_num [notchSquare])]
  rw [e8]
  show pathLen [((0 : ℤ), (0 : ℤ)), (40, 0), (40, 2), (60, 2), (60, 0),
      (100, 0), (100, 100), (0, 100)] + ((100 : ℕ) : ℝ) = 404
  simp only [pathLen]
  rw [e1, e2, e3, e4, e5, e6, e7]
  norm_num

theorem rdp_notchSquare {ε2 : ℝ} (h1 : 4 ≤ ε2) (h2 : ε2 < 5000) :
    rdp ε2 notchSquare = notchSquareSimpl := by
  have hmv : maxVal notchSquare = 100000000 := by decide
  have hth : devThreshold ε2 (hdP notchSquare) (lstP notchSquare) = ε2 * 10000 := by
    show devThreshold ε2 (0, 0) (0, 100) = ε2 * 10000
    rw [devThreshold, if_neg (by decide)]
    norm_num [dist2]
  have hgt : ((maxVal notchSquare : ℤ) : ℝ)
      > devThreshold ε2 (hdP notchSquare) (lstP notchSquare) := by
    rw [hmv, hth]
    have h3 := mul_lt_mul_of_pos_right h2 (show (0 : ℝ) < 10000 by norm_num)
    push_cast
    linarith
  rw [rdp_split ε2 (by norm_num [notchSquare]) hgt]
  have hsp : splitIdx notchSquare = 4 := by decide
  rw [hsp]
  have htk : notchSquare.take (4 + 2)
      = [((0 : ℤ), (0 : ℤ)), (40, 0), (40, 2), (60, 2), (60, 0), (100, 0)] := by decide
  have hdr : notchSquare.drop (4 + 1) = [((100 : ℤ), (0 : ℤ)), (100, 100), (0, 100)] := by decide
  rw [htk, hdr]
  have hb1 : rdp ε2 [((0 : ℤ), (0 : ℤ)), (40, 0), (40, 2), (60, 2), (60, 0), (100, 0)]
      = [(0, 0), (100, 0)] := by
    have hmv1 : maxVal [((0 : ℤ), (0 : ℤ)), (40, 0), (40, 2), (60, 2), (60, 0), (100, 0)]
        = 40000 := by decide
    have hth1 : devThreshold ε2 (hdP [((0 : ℤ), (0 : ℤ)), (40, 0), (40, 2), (60, 2),
        (60, 0), (100, 0)]) (lstP [((0 : ℤ), (0 : ℤ)), (40, 0), (40, 2), (60, 2),
        (60, 0), (100, 0)]) = ε2 * 10000 := by
      show devThreshold ε2 (0, 0) (100, 0) = ε2 * 10000
      rw [devThreshold, if_neg (by decide)]
      norm_num [dist2]
    have hle : ¬ ((maxVal [((0 : ℤ), (0 : ℤ)), (40, 0), (40, 2), (60, 2), (60, 0),
        (100, 0)] : ℤ) : ℝ) > devThreshold ε2 (hdP [((0 : ℤ), (0 : ℤ)), (40, 0),
        (40, 2), (60, 2), (60, 0), (100, 0)]) (lstP [((0 : ℤ), (0 : ℤ)), (40, 0),
        (40, 2), (60, 2), (60, 0), (100, 0)]) := by
      rw [hmv1, hth1]
      push_neg
      have h3 := mul_le_mul_of_nonneg_right h1 (show (0 : ℝ) ≤ 10000 by norm_num)
      push_cast
      linarith
    rw [rdp_collapse ε2 (by norm_num) hle]
    decide
  have hb2 : rdp ε2 [((100 : ℤ), (0 : ℤ)), (100, 100), (0, 100)]
      = [(100, 0), (100, 100), (0, 100)] := by
    have hmv2 : maxVal [((100 : ℤ), (0 : ℤ)), (100, 100), (0, 100)] = 100000000 := by
      decide
    have hth2 : devThreshold ε2 (hdP [((100 : ℤ), (0 : ℤ)), (100, 100), (0, 100)])
        (lstP [((100 : ℤ), (0 : ℤ)), (100, 100), (0, 100)]) = ε2 * 20000 := by
      show devThreshold ε2 (100, 0) (0, 100) = ε2 * 20000
      rw [devThreshold, if_neg (by decide)]
      norm_num [dist2]
    have hgt2 : ((maxVal [((100 : ℤ), (0 : ℤ)), (100, 100), (0, 100)] : ℤ) : ℝ)
        > devThreshold ε2 (hdP [((100 : ℤ), (0 : ℤ)), (100, 100), (0, 100)])
          (lstP [((100 : ℤ), (0 : ℤ)), (100, 100), (0, 100)]) := by
      rw [hmv2, hth2]
      have h3 := mul_lt_mul_of_pos_right h2 (show (0 : ℝ) < 20000 by norm_num)
      push_cast
      linarith
    rw [rdp_split ε2 (by norm_num) hgt2]
    have hsp2 : splitIdx [((100 : ℤ), (0 : ℤ)), (100, 100), (0, 100)] = 0 := by decide
    rw [hsp2]
    have htk2 : [((100 : ℤ), (0 : ℤ)), (100, 100), (0, 100)].take (0 + 2)
        = [((100 : ℤ), (0 : ℤ)), (100, 100)] := by decide
    have hdr2 : [((100 : ℤ), (0 : ℤ)), (100, 100), (0, 100)].drop (0 + 1)
        = [((100 : ℤ), (100 : ℤ)), (0, 100)] := by decide
    rw [htk2, hdr2, rdp_short ε2 (by norm_num), rdp_short ε2 (by norm_num)]
    decide
  rw [hb1, hb2]
  decide

/-- The polygon record the pipeline produces for `notchSquare` at contour
index `i` (with `epsilon_factor = 1/50` and `min_vertices = 3`). -/
noncomputable def notchRecord (i : ℕ) : PolygonData :=
  { id := i + 1
    vertices := notchSquareSimpl
    num_vertices := 4
    area := 9960
    perimeter := 404
    bounding_box := (0, 0, 101, 101)
    centroid := (50, 50) }

theorem processContour_notchSquare (i : ℕ) :
    processContour (1 / 50) 3 i notchSquare = some (notchRecord i) := by
  simp only [processContour, approxPolyDP, arcLength_notchSquare]
  have hr : rdp (((1 : ℝ) / 50 * 404) ^ 2) notchSquare = notchSquareSimpl :=
    rdp_notchSquare (by norm_num) (by norm_num)
  rw [hr]
  rw [if_pos (by norm_num [notchSquareSimpl])]
  have hsl : shoelace notchSquare = 19920 := by decide
  have harea : contourArea notchSquare = 9960 := by
    rw [contourArea, hsl]
    norm_num
  have hbb : boundingRect notchSquare = (0, 0, 101, 101) := by decide
  have hcent : calculate_centroid notchSquareSimpl = (50, 50) := by
    rw [calculate_centroid, if_neg (by decide)]
    have hx : ((notchSquareSimpl.map Prod.fst).sum : ℤ) = 200 := by decide
    have hy : ((notchSquareSimpl.map Prod.snd).sum : ℤ) = 200 := by decide
    rw [hx, hy]
    norm_num [notchSquareSimpl]
  rw [harea, hbb, hcent, notchRecord]
  have hlen : notchSquareSimpl.length = 4 := by decide
  rw [hlen]

theorem processContour_twoPt (f : ℝ) (i : ℕ) :
    processContour f 3 i twoPt = none := by
  simp only [processContour, approxPolyDP]
  rw [rdp_short _ (by norm_num [twoPt])]
  rw [if_neg (by norm_num [twoPt])]

theorem extractClass_notch :
    extractClass (1 / 50) 3 [notchSquare] = [notchRecord 0] := by
  simp only [extractClass, extractClassAux, processContour_notchSquare]

theorem extractClass_twoPt_notch :
    extractClass (1 / 50) 3 [twoPt, notchSquare] = [notchRecord 1] := by
  simp only [extractClass, extractClassAux, processContour_twoPt,
    processContour_notchSquare]

theorem extractClass_twoPt (f : ℝ) : extractClass f 3 [twoPt] = [] := by
  simp only [extractClass, extractClassAux, processContour_twoPt]

theorem extract_two_classes (f : ℝ) :
    extract_polygon_vertices f 3 [("a", []), ("b", [twoPt])] = [("b", [])] := by
  simp [extract_polygon_vertices, extractClass_twoPt]

theorem extract_notch_eval :
    extract_polygon_vertices (1 / 50) 3 [("a", [notchSquare])]
      = [("a", [notchRecord 0])] := by
  rw [extract_polygon_vertices, List.filterMap_cons, if_neg (by simp),
    List.filterMap_nil, extractClass_notch]

/-- A rectangle contour whose `cv2.contourArea` is exactly 1000. -/
def rect1000 : Contour := [(0, 0), (40, 0), (40, 25), (0, 25)]

theorem contourArea_rect1000 : contourArea rect1000 = 1000 := by
  have hsl : shoelace rect1000 = 2000 := by decide
  rw [contourArea, hsl]
  norm_num

/-! Claim theorems. -/

/-- C1 counterexample: on the contour `notchSquare` the pipeline records
area 9960 — `cv2.contourArea` of the *original* contour — while the absolute
shoelace area of the simplified vertex list (the full square, notch removed)
is 10000, so the recorded area does not equal the shoelace area of the
simplified polygon. -/
theorem area_not_from_simplified_cx :
    (extractClass (1 / 50) 3 [notchSquare]).map PolygonData.area = [9960]
    ∧ (extractClass (1 / 50) 3 [notchSquare]).map (fun pd => contourArea pd.vertices)
        = [10000]
    ∧ (9960 : ℚ) ≠ 10000 := by
  have hsimpl : contourArea notchSquareSimpl = 10000 := by
    have hsl : shoelace notchSquareSimpl = 20000 := by decide
    rw [contourArea, hsl]
    norm_num
  refine ⟨?_, ?_, by norm_num⟩
  · rw [extractClass_notch]
    rfl
  · rw [extractClass_notch]
    simp [notchRecord, hsimpl]

/-- C1 (amended): every polygon record produced by vertex extraction records
as its area `cv2.contourArea` of the *original un-simplified* contour — the
absolute shoelace area of the original contour, not of the simplified vertex
list — and its perimeter and bounding box are likewise computed from the
original contour, while the centroid is computed from the simplified vertex
list. -/
theorem area_from_original_contour (f : ℝ) (mv : ℕ)
    (aps : List (String × List Contour)) (t : String)
    (polys : List PolygonData) (pd : PolygonData)
    (h1 : (t, polys) ∈ extract_polygon_vertices f mv aps) (h2 : pd ∈ polys) :
    ∃ cs c, (t, cs) ∈ aps ∧ c ∈ cs ∧
      pd.vertices = approxPolyDP c (f * arcLength c true) true ∧
      pd.area = contourArea c ∧
      pd.perimeter = arcLength c true ∧
      pd.bounding_box = boundingRect c ∧
      pd.centroid = calculate_centroid pd.vertices := by
  obtain ⟨cs, hmem, _, rfl⟩ := mem_extract_iff.mp h1
  obtain ⟨k, hk, hpk⟩ := extractClassAux_mem cs 0 pd h2
  obtain ⟨_, hv, _, _, ha, hp, hb, hc⟩ := processContour_some hpk
  exact ⟨cs, cs[k], hmem, List.getElem_mem hk, hv, ha, hp, hb, hc⟩

theorem area_from_original_contour_witness :
    ("a", [notchRecord 0]) ∈ extract_polygon_vertices (1 / 50) 3 [("a", [notchSquare])]
    ∧ notchRecord 0 ∈ [notchRecord 0]
    ∧ ∃ cs c, ("a", cs) ∈ [("a", [notchSquare])] ∧ c ∈ cs ∧
        (notchRecord 0).vertices = approxPolyDP c ((1 / 50) * arcLength c true) true ∧
        (notchRecord 0).area = contourArea c ∧
        (notchRecord 0).perimeter = arcLength c true ∧
        (notchRecord 0).bounding_box = boundingRect c ∧
        (notchRecord 0).centroid = calculate_centroid (notchRecord 0).vertices := by
  have hm1 : ("a", [notchRecord 0])
      ∈ extract_polygon_vertices (1 / 50) 3 [("a", [notchSquare])] := by
    rw [extract_notch_eval]
    simp
  have hm2 : notchRecord 0 ∈ [notchRecord 0] := by simp
  exact ⟨hm1, hm2,
    area_from_original_contour (1 / 50) 3 [("a", [notchSquare])] "a"
      [notchRecord 0] (notchRecord 0) hm1 hm2⟩

/-- C2 counterexample: with degenerate bounds (`north = 44 ≤ 45 = south` and
`east = west = 7`), `map_pixel_to_latlon` does not fail with any
`InvalidBoundsError`-class condition: it succeeds and returns exactly one
mapped pair for the one input pixel. -/
theorem map_pixel_degenerate_bounds_cx :
    (44 : ℚ) ≤ 45
    ∧ ((7 : ℚ) - 7 = 0)
    ∧ map_pixel_to_latlon [(3, 2)] 44 45 7 7 10 10 = [(221 / 5, 7)]
    ∧ (map_pixel_to_latlon [(3, 2)] 44 45 7 7 10 10).length = 1 := by
  refine ⟨by norm_num, by norm_num, ?_, ?_⟩ <;> norm_num [map_pixel_to_latlon]

/-- C2 (amended): `map_pixel_to_latlon` performs no bounds validation and has
no failure path: for every bounds — including `north ≤ south` and
`east = west` — and positive image dimensions it succeeds and returns exactly
one `(lat, lon)` pair per input pixel, in input order, by the affine
formula. -/
theorem map_pixel_no_bounds_validation (pixel_coords : List (ℚ × ℚ))
    (north south east west : ℚ) (height width : ℕ)
    (hh : 0 < height) (hw : 0 < width) :
    (map_pixel_to_latlon pixel_coords north south east west height width).length
        = pixel_coords.length
    ∧ map_pixel_to_latlon pixel_coords north south east west height width
        = pixel_coords.map (fun xy =>
            (north - xy.2 * ((north - south) / (height : ℚ)),
             west + xy.1 * ((east - west) / (width : ℚ)))) := by
  constructor
  · simp [map_pixel_to_latlon]
  · rfl

theorem map_pixel_no_bounds_validation_witness :
    0 < 10 ∧ 0 < 10
    ∧ (map_pixel_to_latlon [(3, 2)] 44 45 7 7 10 10).length = 1 := by
  refine ⟨by norm_num, by norm_num, ?_⟩
  have h := (map_pixel_no_bounds_validation [(3, 2)] 44 45 7 7 10 10
    (by norm_num) (by norm_num)).1
  simpa using h

/-- C3 counterexample: the contour `rect1000` has `cv2.contourArea` exactly
1000 — *not below* the minimum-area threshold — yet the detector's filter
discards it, because the code keeps only contours with area strictly greater
than 1000. -/
theorem min_area_boundary_cx :
    contourArea rect1000 = 1000
    ∧ ¬ contourArea rect1000 < min_area
    ∧ filter_contours_by_area [rect1000] = []
    ∧ detect_airspace_areas [("x", [rect1000])] = [("x", [])] := by
  refine ⟨contourArea_rect1000, ?_, ?_, ?_⟩
  · rw [contourArea_rect1000, min_area]
    norm_num
  · rw [filter_contours_by_area]
    simp [contourArea_rect1000, min_area]
  · rw [detect_airspace_areas]
    simp [filter_contours_by_area, contourArea_rect1000, min_area]

/-- C3 (amended): a traced component contour appears in the detector's
per-class output iff its `cv2.contourArea` *strictly exceeds* the threshold
`min_area = 1000` (hard-coded): components of area ≤ 1000 — including area
exactly 1000 — are discarded entirely, and a class in which no component
qualifies is stored with an empty sequence, not an error. -/
theorem min_area_strict_filter (classContours : List (String × List Contour)) :
    detect_airspace_areas classContours
        = classContours.map (fun tc => (tc.1, filter_contours_by_area tc.2))
    ∧ (∀ (cs : List Contour) (c : Contour),
        c ∈ filter_contours_by_area cs ↔ c ∈ cs ∧ min_area < contourArea c)
    ∧ (∀ cs : List Contour, (∀ c ∈ cs, contourArea c ≤ min_area) →
        filter_contours_by_area cs = []) := by
  refine ⟨?_, ?_, ?_⟩
  · rw [detect_airspace_areas]
    apply List.map_congr_left
    intro tc _
    by_cases hf : filter_contours_by_area tc.2 = []
    · rw [if_neg (by simpa using hf), hf]
    · rw [if_pos (by simpa using hf)]
  · intro cs c
    rw [filter_contours_by_area, List.mem_filter]
    simp
  · intro cs h
    rw [filter_contours_by_area, List.filter_eq_nil_iff]
    intro c hc
    simp only [decide_eq_true_eq]
    push_neg
    exact h c hc

theorem min_area_strict_filter_witness :
    (∀ c ∈ [rect1000], contourArea c ≤ min_area)
    ∧ filter_contours_by_area [rect1000] = [] := by
  have hall : ∀ c ∈ [rect1000], contourArea c ≤ min_area := by
    intro c hc
    simp only [List.mem_singleton] at hc
    subst hc
    rw [contourArea_rect1000, min_area]
  exact ⟨hall, (min_area_strict_filter []).2.2 [rect1000] hall⟩

/-- C4: for every input pixel `(x, y)`, image of positive width and height,
and bounds, the geographic mapping returns exactly
`lat = north - y * (north - south) / height` and
`lon = west + x * (east - west) / width`, one pair per pixel in input order;
in particular pixel `(0, 0)` maps to `(north, west)` and pixel
`(width, height)` maps to `(south, east)`. -/
theorem map_pixel_affine_formula (pixel_coords : List (ℚ × ℚ))
    (north south east west : ℚ) (height width : ℕ)
    (hh : 0 < height) (hw : 0 < width) :
    map_pixel_to_latlon pixel_coords north south east west height width
        = pixel_coords.map (fun xy =>
            (north - xy.2 * (north - south) / (height : ℚ),
             west + xy.1 * (east - west) / (width : ℚ)))
    ∧ map_pixel_to_latlon [(0, 0)] north south east west height width
        = [(north, west)]
    ∧ map_pixel_to_latlon [((width : ℚ), (height : ℚ))] north south east west height width
        = [(south, east)] := by
  have hh' : ((height : ℚ)) ≠ 0 := by
    exact_mod_cast hh.ne'
  have hw' : ((width : ℚ)) ≠ 0 := by
    exact_mod_cast hw.ne'
  refine ⟨?_, ?_, ?_⟩
  · rw [map_pixel_to_latlon]
    apply List.map_congr_left
    intro xy _
    rw [Prod.mk.injEq]
    constructor <;> ring
  · simp [map_pixel_to_latlon]
  · simp only [map_pixel_to_latlon, List.map_cons, List.map_nil]
    have hlat : north - (height : ℚ) * ((north - south) / (height : ℚ)) = south := by
      field_simp
    have hlon : west + (width : ℚ) * ((east - west) / (width : ℚ)) = east := by
      field_simp
    rw [hlat, hlon]

theorem map_pixel_affine_formula_witness :
    0 < 800 ∧ 0 < 1000
    ∧ map_pixel_to_latlon [(0, 0)] (226 / 5) (89 / 2) (-3 / 10) (-1) 800 1000
        = [(226 / 5, -1)] := by
  refine ⟨by norm_num, by norm_num, ?_⟩
  exact (map_pixel_affine_formula [(0, 0)] (226 / 5) (89 / 2) (-3 / 10) (-1)
    800 1000 (by norm_num) (by norm_num)).2.1

/-- C5: every polygon record in the output collection satisfies
`num_vertices = vertices.length` and `vertices.length ≥ min_vertices` (the
`min_vertices` parameter used for the extraction). -/
theorem num_vertices_consistent (f : ℝ) (mv : ℕ)
    (aps : List (String × List Contour)) (t : String)
    (polys : List PolygonData) (pd : PolygonData)
    (h1 : (t, polys) ∈ extract_polygon_vertices f mv aps) (h2 : pd ∈ polys) :
    pd.num_vertices = pd.vertices.length ∧ mv ≤ pd.vertices.length := by
  obtain ⟨cs, _, _, rfl⟩ := mem_extract_iff.mp h1
  obtain ⟨k, hk, hpk⟩ := extractClassAux_mem cs 0 pd h2
  obtain ⟨_, _, hn, hge, _⟩ := processContour_some hpk
  exact ⟨hn, hge⟩

theorem num_vertices_consistent_witness :
    ("a", [notchRecord 0]) ∈ extract_polygon_vertices (1 / 50) 3 [("a", [notchSquare])]
    ∧ notchRecord 0 ∈ [notchRecord 0]
    ∧ (notchRecord 0).num_vertices = (notchRecord 0).vertices.length
    ∧ 3 ≤ (notchRecord 0).vertices.length := by
  have hm1 : ("a", [notchRecord 0])
      ∈ extract_polygon_vertices (1 / 50) 3 [("a", [notchSquare])] := by
    rw [extract_notch_eval]
    simp
  have hm2 : notchRecord 0 ∈ [notchRecord 0] := by simp
  have h := num_vertices_consistent (1 / 50) 3 [("a", [notchSquare])] "a"
    [notchRecord 0] (notchRecord 0) hm1 hm2
  exact ⟨hm1, hm2, h.1, h.2⟩

/-- C6: polygon simplification is idempotent at the same `epsilon_factor`:
for every contour, re-applying `approxPolyDP` — with its tolerance computed
as `epsilon_factor` times the *input curve's own perimeter* — to the
already-simplified vertex list yields the same vertex list (the simplified
curve's perimeter can only shrink, and the output of Douglas-Peucker is a
fixed point of any pass at a tolerance at most the original one). -/
theorem simplification_idempotent (epsilon_factor : ℝ)
    (hf : 0 ≤ epsilon_factor) (c : Contour) :
    approxPolyDP (approxPolyDP c (epsilon_factor * arcLength c true) true)
        (epsilon_factor
          * arcLength (approxPolyDP c (epsilon_factor * arcLength c true) true) true)
        true
      = approxPolyDP c (epsilon_factor * arcLength c true) true := by
  simp only [approxPolyDP]
  apply rdp_idem
  have h1 : arcLength (rdp ((epsilon_factor * arcLength c true) ^ 2) c) true
      ≤ arcLength c true := arcLength_rdp_le _ c
  have h2 : 0 ≤ arcLength (rdp ((epsilon_factor * arcLength c true) ^ 2) c) true :=
    arcLength_nonneg _ _
  have h3 : 0 ≤ epsilon_factor
      * arcLength (rdp ((epsilon_factor * arcLength c true) ^ 2) c) true :=
    mul_nonneg hf h2
  exact pow_le_pow_left₀ h3 (mul_le_mul_of_nonneg_left h1 hf) 2

theorem simplification_idempotent_witness :
    (0 : ℝ) ≤ 1 / 50
    ∧ approxPolyDP
        (approxPolyDP notchSquare ((1 / 50) * arcLength notchSquare true) true)
        ((1 / 50)
          * arcLength
              (approxPolyDP notchSquare ((1 / 50) * arcLength notchSquare true) true)
              true)
        true
      = approxPolyDP notchSquare ((1 / 50) * arcLength notchSquare true) true :=
  ⟨by norm_num, simplification_idempotent (1 / 50) (by norm_num) notchSquare⟩

/-- C7: the recorded centroid of every extracted polygon is the unweighted
arithmetic mean of its vertex x- and y-coordinates, the empty vertex list
yields `(0, 0)`, and the vertex mean differs in general from the
area-weighted polygon centroid. -/
theorem centroid_vertex_mean :
    (∀ vs : List Pt, vs ≠ [] →
      calculate_centroid vs
        = ((((vs.map Prod.fst).sum : ℤ) : ℚ) / (vs.length : ℚ),
           (((vs.map Prod.snd).sum : ℤ) : ℚ) / (vs.length : ℚ)))
    ∧ calculate_centroid [] = (0, 0)
    ∧ (∀ (f : ℝ) (mv : ℕ) (cs : List Contour) (pd : PolygonData),
        pd ∈ extractClass f mv cs → pd.centroid = calculate_centroid pd.vertices)
    ∧ (∃ vs : List Pt, vs ≠ [] ∧ calculate_centroid vs ≠ polygon_centroid vs) := by
  refine ⟨?_, rfl, ?_, ?_⟩
  · intro vs hvs
    rw [calculate_centroid, if_neg hvs]
  · intro f mv cs pd h
    obtain ⟨k, hk, hpk⟩ := extractClassAux_mem cs 0 pd h
    exact (processContour_some hpk).2.2.2.2.2.2.2
  · refine ⟨[(0, 0), (4, 0), (4, 2), (0, 6)], by simp, ?_⟩
    have h1 : calculate_centroid [((0 : ℤ), (0 : ℤ)), (4, 0), (4, 2), (0, 6)]
        = (2, 2) := by
      rw [calculate_centroid, if_neg (by simp)]
      have hx : (([((0 : ℤ), (0 : ℤ)), (4, 0), (4, 2), (0, 6)].map Prod.fst).sum : ℤ)
          = 8 := by decide
      have hy : (([((0 : ℤ), (0 : ℤ)), (4, 0), (4, 2), (0, 6)].map Prod.snd).sum : ℤ)
          = 8 := by decide
      rw [hx, hy]
      norm_num
    have h2 : polygon_centroid [((0 : ℤ), (0 : ℤ)), (4, 0), (4, 2), (0, 6)]
        = (5 / 3, 13 / 6) := by
      simp only [polygon_centroid]
      have hsl : shoelace [((0 : ℤ), (0 : ℤ)), (4, 0), (4, 2), (0, 6)] = 32 := by
        decide
      rw [hsl]
      rw [if_neg (by norm_num)]
      have hcx : (([((0 : ℤ), (0 : ℤ)), (4, 0), (4, 2), (0, 6)].zip
            ([((0 : ℤ), (0 : ℤ)), (4, 0), (4, 2), (0, 6)].rotate 1)).map
            (fun pq => (pq.1.1 + pq.2.1) * (pq.1.1 * pq.2.2 - pq.2.1 * pq.1.2))).sum
          = 160 := by decide
      have hcy : (([((0 : ℤ), (0 : ℤ)), (4, 0), (4, 2), (0, 6)].zip
            ([((0 : ℤ), (0 : ℤ)), (4, 0), (4, 2), (0, 6)].rotate 1)).map
            (fun pq => (pq.1.2 + pq.2.2) * (pq.1.1 * pq.2.2 - pq.2.1 * pq.1.2))).sum
          = 208 := by decide
      rw [hcx, hcy]
      norm_num
    rw [h1, h2]
    intro hc
    rw [Prod.mk.injEq] at hc
    norm_num at hc

theorem centroid_vertex_mean_witness :
    ([((1 : ℤ), (2 : ℤ))] ≠ [])
    ∧ calculate_centroid [((1 : ℤ), (2 : ℤ))]
        = (((([((1 : ℤ), (2 : ℤ))].map Prod.fst).sum : ℤ) : ℚ)
              / (([((1 : ℤ), (2 : ℤ))].length : ℚ)),
           ((([((1 : ℤ), (2 : ℤ))].map Prod.snd).sum : ℤ) : ℚ)
              / (([((1 : ℤ), (2 : ℤ))].length : ℚ))) :=
  ⟨by simp, centroid_vertex_mean.1 [((1 : ℤ), (2 : ℤ))] (by simp)⟩

/-- C8: with distinct class keys (a Python dict's keys are unique), a class
whose stored contour list is empty does not appear as a key of the extracted
collection at all, whereas a class with a nonempty contour list always
appears — mapped to its (possibly empty) polygon list.  So "no detections"
is represented two different ways at the public interface, depending on
where the pipeline emptied. -/
theorem empty_class_key_representation (f : ℝ) (mv : ℕ)
    (aps : List (String × List Contour))
    (hnd : (aps.map Prod.fst).Nodup) (t : String) :
    ((t, ([] : List Contour)) ∈ aps →
      t ∉ (extract_polygon_vertices f mv aps).map Prod.fst)
    ∧ (∀ cs, (t, cs) ∈ aps → cs ≠ [] →
        (t, extractClass f mv cs) ∈ extract_polygon_vertices f mv aps) := by
  constructor
  · intro hmem hin
    obtain ⟨⟨t', polys⟩, hp, ht⟩ := List.mem_map.mp hin
    simp only at ht
    subst ht
    obtain ⟨cs, hcs_mem, hcs_ne, _⟩ := mem_extract_iff.mp hp
    exact hcs_ne (nodup_keys_val_unique aps hnd t' [] cs hmem hcs_mem).symm
  · intro cs hmem hne
    exact mem_extract_iff.mpr ⟨cs, hmem, hne, rfl⟩

theorem empty_class_key_representation_witness :
    (([("a", ([] : List Contour)), ("b", [twoPt])].map Prod.fst).Nodup)
    ∧ ("a" ∉ (extract_polygon_vertices 1 3 [("a", []), ("b", [twoPt])]).map Prod.fst)
    ∧ (("b", extractClass 1 3 [twoPt])
        ∈ extract_polygon_vertices 1 3 [("a", []), ("b", [twoPt])]) := by
  have hnd : (([("a", ([] : List Contour)), ("b", [twoPt])]).map Prod.fst).Nodup := by
    simp
  refine ⟨hnd, ?_, ?_⟩
  · exact (empty_class_key_representation 1 3 [("a", []), ("b", [twoPt])] hnd "a").1
      (by simp)
  · exact (empty_class_key_representation 1 3 [("a", []), ("b", [twoPt])] hnd "b").2
      [twoPt] (by simp) (by simp)

/-- C9: within each class, a polygon's `id` equals the 1-based index of its
originating contour in the class's contour sequence; ids are strictly
increasing in output order (hence unique within the class), but need not be
consecutive and need not start at 1 when some contour fails the
`min_vertices` test. -/
theorem polygon_ids_from_contour_index (f : ℝ) (mv : ℕ) (cs : List Contour) :
    (∀ pd ∈ extractClass f mv cs,
      ∃ k, ∃ hk : k < cs.length,
        pd.id = k + 1 ∧ processContour f mv k cs[k] = some pd)
    ∧ List.Pairwise (fun a b => a.id < b.id) (extractClass f mv cs)
    ∧ ((extractClass f mv cs).map PolygonData.id).Nodup
    ∧ (∃ cs' : List Contour, (extractClass (1 / 50) 3 cs').map PolygonData.id = [2]) := by
  refine ⟨?_, ?_, ?_, ?_⟩
  · intro pd h
    obtain ⟨k, hk, hpk⟩ := extractClassAux_mem cs 0 pd h
    rw [Nat.zero_add] at hpk
    exact ⟨k, hk, (processContour_some hpk).1, hpk⟩
  · exact extractClassAux_pairwise cs 0
  · have hpw : List.Pairwise (fun a b => a.id < b.id) (extractClass f mv cs) :=
      extractClassAux_pairwise cs 0
    have h2 : List.Pairwise (fun a b : PolygonData => a.id ≠ b.id)
        (extractClass f mv cs) := hpw.imp (fun h => Nat.ne_of_lt h)
    exact List.pairwise_map.mpr h2
  · refine ⟨[twoPt, notchSquare], ?_⟩
    rw [extractClass_twoPt_notch]
    rfl

theorem polygon_ids_from_contour_index_witness :
    notchRecord 1 ∈ extractClass (1 / 50) 3 [twoPt, notchSquare]
    ∧ ∃ k, ∃ hk : k < ([twoPt, notchSquare] : List Contour).length,
        (notchRecord 1).id = k + 1
        ∧ processContour (1 / 50) 3 k ([twoPt, notchSquare] : List Contour)[k]
            = some (notchRecord 1) := by
  have hmem : notchRecord 1 ∈ extractClass (1 / 50) 3 [twoPt, notchSquare] := by
    rw [extractClass_twoPt_notch]
    simp
  exact ⟨hmem,
    (polygon_ids_from_contour_index (1 / 50) 3 [twoPt, notchSquare]).1
      (notchRecord 1) hmem⟩

/-- C10: running `extract_polygon_vertices` only replaces the detector's
polygon-record store: the loaded source image and the per-class contour
store are unchanged, so the same contours can be re-extracted with different
parameters, with the same result as extracting directly from the original
state. -/
theorem extract_frame_effect {Img : Type*} (f f₂ : ℝ) (mv mv₂ : ℕ)
    (s : DetectorState Img) :
    (extract_method f mv s).original_image = s.original_image
    ∧ (extract_method f mv s).airspace_polygons = s.airspace_polygons
    ∧ (extract_method f mv s).vertex_data
        = extract_polygon_vertices f mv s.airspace_polygons
    ∧ extract_method f₂ mv₂ (extract_method f mv s) = extract_method f₂ mv₂ s :=
  ⟨rfl, rfl, rfl, rfl⟩

end VFRChart
